import Mathlib

/-!
Verification of the finite-volume mesh-discretization layer and the
screening interaction engine of a TDGL (time-dependent Ginzburg-Landau)
simulation package.

The embedded functions are shallow embeddings of the Python source files
`tdgl/finite_volume/util.py` and `tdgl/solver/screening.py`.  Machine
floating-point arithmetic is modelled by exact arithmetic: rational
numbers `ℚ` for the purely algebraic mesh computations and real numbers
`ℝ` where square roots occur (Euclidean distances in the screening
kernel).  Division by zero follows the usual Lean total-division
convention `x / 0 = 0`; where the Python code would produce `inf`/`nan`
this convention is noted explicitly in the relevant theorems.
-/

namespace TDGL

/-! ### Circumcenters (`generate_voronoi_vertices`, util.py lines 96-125)

The source translates each triangle so that vertex 0 sits at the origin,
applies the perpendicular-bisector closed form with denominator
`2 * (bp x cp)`, and translates back.  The source is vectorized over the
triangle array; the embedding below is the per-triangle scalar kernel,
mapped over the list of triangles. -/

/-- The denominator `2 * (bp[0]*cp[1] - bp[1]*cp[0])` computed by
`generate_voronoi_vertices` for one triangle with vertices
`(x0, y0)`, `(x1, y1)`, `(x2, y2)`. -/
def voronoiDenominator (x0 y0 x1 y1 x2 y2 : ℚ) : ℚ :=
  2 * ((x1 - x0) * (y2 - y0) - (y1 - y0) * (x2 - x0))

/-- Per-triangle circumcenter kernel of `generate_voronoi_vertices`:
translate so vertex 0 is at the origin, apply the closed form, translate
back.  Mirrors util.py lines 111-125. -/
def voronoiVertex (x0 y0 x1 y1 x2 y2 : ℚ) : ℚ × ℚ :=
  let bpx := x1 - x0
  let bpy := y1 - y0
  let cpx := x2 - x0
  let cpy := y2 - y0
  let denominator := 2 * (bpx * cpy - bpy * cpx)
  let xcp := (cpy * (bpx ^ 2 + bpy ^ 2) - bpy * (cpx ^ 2 + cpy ^ 2)) / denominator
  let ycp := (bpx * (cpx ^ 2 + cpy ^ 2) - cpx * (bpx ^ 2 + bpy ^ 2)) / denominator
  (xcp + x0, ycp + y0)

/-- `generate_voronoi_vertices` over the whole triangle array: the map of
the per-triangle kernel over the element list.  Coordinates of the sites
are looked up by index (out-of-range access defaults to `0`, which the
source never exercises for valid meshes). -/
def generate_voronoi_vertices (x y : List ℚ) (elements : List (Nat × Nat × Nat)) :
    List (ℚ × ℚ) :=
  elements.map fun t =>
    voronoiVertex (x.getD t.1 0) (y.getD t.1 0) (x.getD t.2.1 0) (y.getD t.2.1 0)
      (x.getD t.2.2 0) (y.getD t.2.2 0)

/-- Squared Euclidean distance between two points of `ℚ × ℚ`. -/
def sqDist (p q : ℚ × ℚ) : ℚ :=
  (p.1 - q.1) ^ 2 + (p.2 - q.2) ^ 2

/-! ### Solver options backend selection (C9)

Modelled from the spec: the `SolverOptions.validate` method is not under
`src/` (only its caller `tdgl/test/test_solve.py` is).  Per the spec,
selecting more than one screening backend for a single invocation (for
example both `screening_use_numba` and `screening_use_jax`) is a
configuration error that is rejected up front, before any computation
starts; the test expects `validate()` to raise `SolverOptionsError` when
both flags are set. -/

/-- Error raised when conflicting screening backends are selected.
Modelled from the spec: mirrors `SolverOptionsError` as exercised by
`test_screening` in `tdgl/test/test_solve.py` lines 99-102. -/
inductive SolverOptionsError where
  | conflictingScreeningBackends
deriving DecidableEq

/-- The screening-backend selection flags of `SolverOptions`.
Modelled from the spec: only the two backend flags relevant to the
conflicting-backend check are embedded. -/
structure SolverOptions where
  screening_use_numba : Bool
  screening_use_jax : Bool
deriving DecidableEq

/-- Modelled from the spec: `SolverOptions.validate` rejects the
configuration with an error, before any computation starts, when more
than one screening backend is selected at once. -/
def SolverOptions.validate (o : SolverOptions) : Except SolverOptionsError Unit :=
  if o.screening_use_numba && o.screening_use_jax then
    .error .conflictingScreeningBackends
  else
    .ok ()

/-! ### Edge extraction (`get_edges`, util.py lines 8-23)

The source concatenates the three directed-edge blocks
`elements[:, (0, 1)]`, `elements[:, (1, 2)]`, `elements[:, (2, 0)]`,
sorts each row ascending (canonicalization), and calls
`np.unique(..., return_counts=True, axis=0)`, which returns the
lexicographically sorted distinct rows together with their occurrence
counts; the boundary flag array is `counts == 1`.  No error is ever
raised: `np.unique` is total. -/

/-- Row-wise `np.sort`: canonicalize one directed edge so the smaller
site index comes first. -/
def canonEdge (e : Nat × Nat) : Nat × Nat := (min e.1 e.2, max e.1 e.2)

/-- The concatenated, canonicalized edge-slot list built by `get_edges`
before deduplication: all `(v0, v1)` slots, then all `(v1, v2)` slots,
then all `(v2, v0)` slots, each row sorted ascending. -/
def allEdges (elements : List (Nat × Nat × Nat)) : List (Nat × Nat) :=
  ((elements.map fun t => (t.1, t.2.1)) ++
      (elements.map fun t => (t.2.1, t.2.2)) ++
      (elements.map fun t => (t.2.2, t.1))).map canonEdge

/-- The three canonical undirected edges of one triangle. -/
def triEdges (t : Nat × Nat × Nat) : List (Nat × Nat) :=
  [canonEdge (t.1, t.2.1), canonEdge (t.2.1, t.2.2), canonEdge (t.2.2, t.1)]

/-- Lexicographic order on edge rows, the row order used by `np.unique`. -/
def lexLe (p q : Nat × Nat) : Bool :=
  p.1 < q.1 || (p.1 == q.1 && p.2 ≤ q.2)

/-- Insert into a lex-sorted list of edge rows. -/
def insertLex (p : Nat × Nat) : List (Nat × Nat) → List (Nat × Nat)
  | [] => [p]
  | q :: l => if lexLe p q then p :: q :: l else q :: insertLex p l

/-- Insertion sort by lexicographic row order. -/
def sortLex (l : List (Nat × Nat)) : List (Nat × Nat) := l.foldr insertLex []

/-- The distinct rows of `l` in lexicographic order, as returned by
`np.unique(l, axis=0)`. -/
def uniqueEdges (l : List (Nat × Nat)) : List (Nat × Nat) := sortLex l.dedup

/-- `get_edges`: the unique canonical edges together with the
`counts == 1` boundary flags. -/
def get_edges (elements : List (Nat × Nat × Nat)) :
    List (Nat × Nat) × List Bool :=
  (uniqueEdges (allEdges elements),
    (uniqueEdges (allEdges elements)).map fun e =>
      (allEdges elements).count e == 1)

/-! ### Triangle areas and the mass matrix (`triangle_areas`, `mass_matrix`,
util.py lines 247-265 and 281-316)

`triangle_areas` computes the signed area `det(s) * 0.5` where the rows of
`s` are `xy[2] - xy[1]` and `xy[0] - xy[2]`.  `mass_matrix` accumulates
one third of each triangle's area onto the three diagonal entries
`(t[0], t[0])`, `(t[1], t[1])`, `(t[2], t[2])` of an `N x N` matrix; with
`sparse=True` the full matrix is returned, with `sparse=False` only its
diagonal is returned. -/

/-- Signed area of one triangle, as computed by `triangle_areas`:
`0.5 * det` of the matrix with rows `xy2 - xy1` and `xy0 - xy2`. -/
def triangle_area (points : List (ℚ × ℚ)) (t : Nat × Nat × Nat) : ℚ :=
  let xy0 := points.getD t.1 (0, 0)
  let xy1 := points.getD t.2.1 (0, 0)
  let xy2 := points.getD t.2.2 (0, 0)
  ((xy2.1 - xy1.1) * (xy0.2 - xy2.2) - (xy2.2 - xy1.2) * (xy0.1 - xy2.1)) * (1 / 2)

/-- `triangle_areas`: the signed areas of all triangles. -/
def triangle_areas (points : List (ℚ × ℚ)) (triangles : List (Nat × Nat × Nat)) :
    List ℚ :=
  triangles.map (triangle_area points)

/-- One statement `mass[r, r] += a` of the `mass_matrix` accumulation loop,
acting on a matrix represented as a function `Nat → Nat → ℚ`. -/
def bumpDiag (m : Nat → Nat → ℚ) (r : Nat) (a : ℚ) : Nat → Nat → ℚ :=
  fun i j => if i = r ∧ j = r then m i j + a else m i j

/-- One iteration of the `mass_matrix` loop over triangles: add one third of
the triangle's area to the three diagonal entries of its vertices, in the
order `t[0]`, `t[1]`, `t[2]` as in the source. -/
def massStep (points : List (ℚ × ℚ)) (m : Nat → Nat → ℚ) (t : Nat × Nat × Nat) :
    Nat → Nat → ℚ :=
  bumpDiag
    (bumpDiag (bumpDiag m t.1 (triangle_area points t / 3)) t.2.1
      (triangle_area points t / 3))
    t.2.2 (triangle_area points t / 3)

/-- `mass_matrix(points, triangles, sparse=True)`: the full `N x N` matrix
produced by the accumulation loop, represented as a function on indices
(entries outside `[0, N)` are never touched by valid input and stay `0`). -/
def mass_matrix_sparse (points : List (ℚ × ℚ)) (triangles : List (Nat × Nat × Nat)) :
    Nat → Nat → ℚ :=
  triangles.foldl (massStep points) fun _ _ => 0

/-- `mass_matrix(points, triangles, sparse=False)`: the diagonal of the
accumulated matrix, returned as a vector of length `N = points.length`
(`mass.diagonal()` in the source). -/
def mass_matrix_dense (points : List (ℚ × ℚ)) (triangles : List (Nat × Nat × Nat)) :
    List ℚ :=
  (List.range points.length).map fun i =>
    (triangles.foldl (massStep points) fun _ _ => 0) i i

/-- How many of the three vertex slots of triangle `t` equal site `i`. -/
def occurrenceCount (i : Nat) (t : Nat × Nat × Nat) : ℕ :=
  (if i = t.1 then 1 else 0) + (if i = t.2.1 then 1 else 0) +
    (if i = t.2.2 then 1 else 0)

/-! ### Supercurrent (`get_supercurrent`, util.py lines 231-244)

The source evaluates `(psi.conjugate()[edges[:, 0]] * (gradient @ psi)).imag`:
complex numbers are modelled as pairs of exact rationals (re, im), the
sparse covariant-derivative matrix as a dense row list, and its
matrix-vector product entry as the sum over site indices. -/

/-- Complex multiplication on (re, im) pairs of rationals. -/
def cMul (z w : ℚ × ℚ) : ℚ × ℚ :=
  (z.1 * w.1 - z.2 * w.2, z.1 * w.2 + z.2 * w.1)

/-- Complex conjugation on (re, im) pairs of rationals. -/
def cConj (z : ℚ × ℚ) : ℚ × ℚ := (z.1, -z.2)

/-- Entry `e` of the matrix-vector product `gradient @ psi`: the sum over
all site indices of (matrix entry) * (site value), modelling the opaque
sparse linear operator application. -/
def matVec (gradient : List (List (ℚ × ℚ))) (psi : List (ℚ × ℚ)) (e : Nat) :
    ℚ × ℚ :=
  ∑ s ∈ Finset.range psi.length,
    cMul ((gradient.getD e []).getD s (0, 0)) (psi.getD s (0, 0))

/-- `get_supercurrent(psi, gradient, edges)`: for each edge index `e` with
first endpoint `a = edges[e][0]`, the imaginary part of
`conj(psi[a]) * (gradient @ psi)[e]`.  The evaluation is a pure function
of its inputs (the embedding has no state to mutate, matching the
source's read-only access to `psi`, `gradient` and `edges`). -/
def get_supercurrent (psi : List (ℚ × ℚ)) (gradient : List (List (ℚ × ℚ)))
    (edges : List (Nat × Nat)) : List ℚ :=
  (List.range edges.length).map fun e =>
    (cMul (cConj (psi.getD (edges.getD e (0, 0)).1 (0, 0)))
      (matVec gradient psi e)).2

/-! ### Cell areas (`compute_surrounding_area` and
`get_convex_polygon_area`, util.py lines 149-228)

`get_convex_polygon_area` calls `scipy.spatial.ConvexHull`, catching
`QhullError` (raised exactly when the input is less than 2-dimensional,
i.e. all points collinear) and returning `(0, True)` in that case;
otherwise it returns `hull.volume` (the 2D area) and the convexity flag
`len(hull.vertices) == len(x)`.  The external Qhull library is modelled
by an exact monotone-chain convex hull over `ℚ`: `hullVertices` lists the
extreme points of the input (duplicates and interior/edge points
excluded, as Qhull does), `hullArea` is the absolute shoelace area of
that polygon. -/

/-- Cross product `(a - o) x (b - o)` used for turn tests. -/
def cross2 (o a b : ℚ × ℚ) : ℚ :=
  (a.1 - o.1) * (b.2 - o.2) - (a.2 - o.2) * (b.1 - o.1)

/-- True when every triple of input points is collinear (in particular
when there are fewer than 3 points): exactly the 2D inputs on which
Qhull raises `QhullError`. -/
def allCollinear (pts : List (ℚ × ℚ)) : Bool :=
  pts.all fun a => pts.all fun b => pts.all fun c => cross2 a b c == 0

/-- Lexicographic order on rational points. -/
def lexLeQ (p q : ℚ × ℚ) : Bool := p.1 < q.1 || (p.1 == q.1 && p.2 ≤ q.2)

/-- Insert into a lex-sorted list of rational points. -/
def insertLexQ (p : ℚ × ℚ) : List (ℚ × ℚ) → List (ℚ × ℚ)
  | [] => [p]
  | q :: l => if lexLeQ p q then p :: q :: l else q :: insertLexQ p l

/-- Insertion sort of rational points by lex order. -/
def sortLexQ (l : List (ℚ × ℚ)) : List (ℚ × ℚ) := l.foldr insertLexQ []

/-- Monotone-chain pop step: with the chain stored in reverse order, drop
trailing points that no longer make a strict left turn towards `p`. -/
def popTurn : List (ℚ × ℚ) → (ℚ × ℚ) → List (ℚ × ℚ)
  | b :: a :: rest, p => if cross2 a b p ≤ 0 then popTurn (a :: rest) p else b :: a :: rest
  | l, _ => l

/-- One half (lower or upper) of the monotone-chain hull of an ordered
point list. -/
def halfChain (pts : List (ℚ × ℚ)) : List (ℚ × ℚ) :=
  (pts.foldl (fun acc p => p :: popTurn acc p) []).reverse

/-- The hull's extreme points in traversal order: lower chain then upper
chain over the lex-sorted distinct points, dropping each chain's final
point.  Models `ConvexHull(pts).vertices` for 2D input. -/
def hullVertices (pts : List (ℚ × ℚ)) : List (ℚ × ℚ) :=
  (halfChain (sortLexQ pts.dedup)).dropLast ++
    (halfChain (sortLexQ pts.dedup).reverse).dropLast

/-- Cyclic shoelace sum of a vertex list, with `q` the wrap-around first
vertex. -/
def shoelaceSum : List (ℚ × ℚ) → (ℚ × ℚ) → ℚ
  | [], _ => 0
  | [p], q => p.1 * q.2 - q.1 * p.2
  | p :: r :: rest, q => (p.1 * r.2 - r.1 * p.2) + shoelaceSum (r :: rest) q

/-- Area enclosed by the hull of `pts` (`hull.volume` for 2D input). -/
def hullArea (pts : List (ℚ × ℚ)) : ℚ :=
  match hullVertices pts with
  | [] => 0
  | p :: rest => |shoelaceSum (p :: rest) p| / 2

/-- `get_convex_polygon_area(x, y)`: on degenerate (all-collinear) input
the `QhullError` handler returns `(0, True)`; otherwise the hull area and
the convexity flag `len(hull.vertices) == len(x)`. -/
def get_convex_polygon_area (x y : List ℚ) : ℚ × Bool :=
  if allCollinear (x.zip y) then (0, true)
  else (hullArea (x.zip y), (hullVertices (x.zip y)).length == (x.zip y).length)

/-- The boundary edges incident to site `i`:
`boundary_edges[(boundary_edges == i).any(axis=1)]`. -/
def incidentBoundaryEdges (boundary_edges : List (Nat × Nat)) (i : Nat) :
    List (Nat × Nat) :=
  boundary_edges.filter fun e => e.1 == i || e.2 == i

/-- X coordinates of the polygon formed by site `i` and the midpoints of
its incident boundary edges: `concatenate([[x[i]], x_mid])`. -/
def siteMidpointPolygonX (x : List ℚ) (boundary_edges : List (Nat × Nat))
    (i : Nat) : List ℚ :=
  x.getD i 0 ::
    (incidentBoundaryEdges boundary_edges i).map fun e =>
      (x.getD e.1 0 + x.getD e.2 0) / 2

/-- Y coordinates of the polygon formed by site `i` and the midpoints of
its incident boundary edges: `concatenate([[y[i]], y_mid])`. -/
def siteMidpointPolygonY (y : List ℚ) (boundary_edges : List (Nat × Nat))
    (i : Nat) : List ℚ :=
  y.getD i 0 ::
    (incidentBoundaryEdges boundary_edges i).map fun e =>
      (y.getD e.1 0 + y.getD e.2 0) / 2

/-- `compute_surrounding_area`: per site, the convex-hull area of its
surrounding circumcenters; boundary sites are closed by appending the
site's own position and the midpoints of its incident boundary edges,
with the concave (site + midpoints) triangle subtracted when the closed
point set is flagged non-convex. -/
def compute_surrounding_area (x y x_dual y_dual : List ℚ) (boundary : List Nat)
    (edges : List (Nat × Nat)) (boundary_edge_indices : List Nat)
    (polygons : List (List Nat)) : List ℚ :=
  let boundary_edges := boundary_edge_indices.map fun k => edges.getD k (0, 0)
  (List.range polygons.length).map fun i =>
    let polygon := polygons.getD i []
    let poly_x := polygon.map fun t => x_dual.getD t 0
    let poly_y := polygon.map fun t => y_dual.getD t 0
    if boundary.contains i then
      let res := get_convex_polygon_area
        (poly_x ++ siteMidpointPolygonX x boundary_edges i)
        (poly_y ++ siteMidpointPolygonY y boundary_edges i)
      if res.2 then res.1
      else res.1 -
        (get_convex_polygon_area (siteMidpointPolygonX x boundary_edges i)
          (siteMidpointPolygonY y boundary_edges i)).1
    else
      (get_convex_polygon_area poly_x poly_y).1

/-! ### Screening kernel (`get_A_induced_numba`, screening.py lines 12-46)

For each edge center `i` and component `k`, the source accumulates
`tmp += J_site[j, k] * site_areas[j] / dr` over all sites `j`, where
`dr = sqrt((xe - xs)^2 + (ye - ys)^2)`; distances require `Real.sqrt`, so
this embedding lives in `ℝ`. -/

/-- Euclidean distance between two points of the plane. -/
noncomputable def euclideanDist (p q : ℝ × ℝ) : ℝ :=
  Real.sqrt ((p.1 - q.1) ^ 2 + (p.2 - q.2) ^ 2)

/-- `get_A_induced_numba(J_site, site_areas, sites, edge_centers)`: for
each edge center, per component, the loop accumulation
`tmp += J_site[j, k] * site_areas[j] / dr` over `j < J_site.length`,
started at `0` — transcribing the numba kernel's inner loop. -/
noncomputable def get_A_induced (J_site : List (ℝ × ℝ)) (site_areas : List ℝ)
    (sites : List (ℝ × ℝ)) (edge_centers : List (ℝ × ℝ)) : List (ℝ × ℝ) :=
  edge_centers.map fun c =>
    ((List.range J_site.length).foldl
      (fun tmp j =>
        tmp + (J_site.getD j (0, 0)).1 * site_areas.getD j 0 /
          euclideanDist c (sites.getD j (0, 0))) 0,
      (List.range J_site.length).foldl
      (fun tmp j =>
        tmp + (J_site.getD j (0, 0)).2 * site_areas.getD j 0 /
          euclideanDist c (sites.getD j (0, 0))) 0)

end TDGL

namespace TDGL

lemma insertLex_perm (p : Nat × Nat) (l : List (Nat × Nat)) :
    (insertLex p l).Perm (p :: l) := by
  induction l with
  | nil => exact List.Perm.refl _
  | cons q l ih =>
    simp only [insertLex]
    by_cases h : lexLe p q
    · rw [if_pos h]
    · rw [if_neg h]
      exact (ih.cons q).trans (List.Perm.swap p q l)

lemma sortLex_perm (l : List (Nat × Nat)) : (sortLex l).Perm l := by
  induction l with
  | nil => exact List.Perm.refl _
  | cons p l ih => exact (insertLex_perm p (sortLex l)).trans (ih.cons p)

lemma mem_uniqueEdges {e : Nat × Nat} {l : List (Nat × Nat)} :
    e ∈ uniqueEdges l ↔ e ∈ l := by
  rw [uniqueEdges, (sortLex_perm l.dedup).mem_iff, List.mem_dedup]

lemma uniqueEdges_nodup (l : List (Nat × Nat)) : (uniqueEdges l).Nodup :=
  ((sortLex_perm l.dedup).nodup_iff).mpr l.nodup_dedup

lemma count_allEdges_cons (t : Nat × Nat × Nat) (l : List (Nat × Nat × Nat))
    (e : Nat × Nat) :
    (allEdges (t :: l)).count e = (triEdges t).count e + (allEdges l).count e := by
  simp only [allEdges, triEdges, List.map_cons, List.cons_append, List.map_append,
    List.count_append, List.count_cons, List.count_nil]
  split_ifs <;> omega

lemma canonEdge_eq_iff (a b c d : Nat) :
    canonEdge (a, b) = canonEdge (c, d) ↔ (a = c ∧ b = d) ∨ (a = d ∧ b = c) := by
  simp only [canonEdge, Prod.mk.injEq]
  omega

lemma triEdges_count (t : Nat × Nat × Nat)
    (hd : t.1 ≠ t.2.1 ∧ t.2.1 ≠ t.2.2 ∧ t.2.2 ≠ t.1) (e : Nat × Nat) :
    (triEdges t).count e = if e ∈ triEdges t then 1 else 0 := by
  obtain ⟨h1, h2, h3⟩ := hd
  have hc12 : canonEdge (t.1, t.2.1) ≠ canonEdge (t.2.1, t.2.2) := fun hEq => by
    rcases (canonEdge_eq_iff _ _ _ _).1 hEq with ⟨ha, hb⟩ | ⟨ha, hb⟩ <;> omega
  have hc23 : canonEdge (t.2.1, t.2.2) ≠ canonEdge (t.2.2, t.1) := fun hEq => by
    rcases (canonEdge_eq_iff _ _ _ _).1 hEq with ⟨ha, hb⟩ | ⟨ha, hb⟩ <;> omega
  have hc13 : canonEdge (t.1, t.2.1) ≠ canonEdge (t.2.2, t.1) := fun hEq => by
    rcases (canonEdge_eq_iff _ _ _ _).1 hEq with ⟨ha, hb⟩ | ⟨ha, hb⟩ <;> omega
  by_cases e1 : e = canonEdge (t.1, t.2.1) <;>
    by_cases e2 : e = canonEdge (t.2.1, t.2.2) <;>
    by_cases e3 : e = canonEdge (t.2.2, t.1) <;>
    simp_all [triEdges, List.count_cons, beq_iff_eq]

lemma count_allEdges (elements : List (Nat × Nat × Nat))
    (hd : ∀ t ∈ elements, t.1 ≠ t.2.1 ∧ t.2.1 ≠ t.2.2 ∧ t.2.2 ≠ t.1)
    (e : Nat × Nat) :
    (allEdges elements).count e =
      elements.countP fun t => decide (e ∈ triEdges t) := by
  induction elements with
  | nil => simp [allEdges]
  | cons t l ih =>
    rw [count_allEdges_cons, List.countP_cons,
      ih fun u hu => hd u (List.mem_cons_of_mem t hu),
      triEdges_count t (hd t (List.mem_cons_self t l)) e]
    by_cases hmem : e ∈ triEdges t
    · simp [hmem]
      omega
    · simp [hmem]

lemma mem_allEdges {e : Nat × Nat} {elements : List (Nat × Nat × Nat)} :
    e ∈ allEdges elements ↔ ∃ t ∈ elements, e ∈ triEdges t := by
  constructor
  · intro h
    simp only [allEdges, List.mem_map, List.mem_append] at h
    obtain ⟨x, hx, rfl⟩ := h
    rcases hx with (⟨t, ht, rfl⟩ | ⟨t, ht, rfl⟩) | ⟨t, ht, rfl⟩ <;>
      exact ⟨t, ht, by simp [triEdges]⟩
  · rintro ⟨t, ht, he⟩
    simp only [triEdges, List.mem_cons, List.not_mem_nil, or_false] at he
    simp only [allEdges, List.mem_map, List.mem_append]
    rcases he with rfl | rfl | rfl
    · exact ⟨(t.1, t.2.1), Or.inl (Or.inl ⟨t, ht, rfl⟩), rfl⟩
    · exact ⟨(t.2.1, t.2.2), Or.inl (Or.inr ⟨t, ht, rfl⟩), rfl⟩
    · exact ⟨(t.2.2, t.1), Or.inr ⟨t, ht, rfl⟩, rfl⟩

lemma allEdges_canonical {e : Nat × Nat} {elements : List (Nat × Nat × Nat)}
    (h : e ∈ allEdges elements) : e.1 ≤ e.2 := by
  simp only [allEdges, List.mem_map] at h
  obtain ⟨x, _, rfl⟩ := h
  simp only [canonEdge]
  omega

lemma get_edges_flag_getD (elements : List (Nat × Nat × Nat)) {i : Nat}
    (h : i < (get_edges elements).1.length) :
    (get_edges elements).2.getD i false =
      ((allEdges elements).count ((get_edges elements).1.getD i (0, 0)) == 1) := by
  have h' : i < (uniqueEdges (allEdges elements)).length := h
  simp [get_edges, List.getD_eq_getElem?_getD, List.getElem?_map,
    List.getElem?_eq_getElem h']

lemma bumpDiag_diag (m : Nat → Nat → ℚ) (r : Nat) (a : ℚ) (i : Nat) :
    bumpDiag m r a i i = m i i + if i = r then a else 0 := by
  by_cases h : i = r <;> simp [bumpDiag, h]

lemma massStep_diag (points : List (ℚ × ℚ)) (m : Nat → Nat → ℚ)
    (t : Nat × Nat × Nat) (i : Nat) :
    massStep points m t i i =
      m i i + (occurrenceCount i t : ℚ) * (triangle_area points t / 3) := by
  simp only [massStep, bumpDiag_diag, occurrenceCount]
  split_ifs <;> push_cast <;> ring

lemma massAccum_diag (points : List (ℚ × ℚ)) (ts : List (Nat × Nat × Nat)) :
    ∀ (m : Nat → Nat → ℚ) (i : Nat),
      (ts.foldl (massStep points) m) i i =
        m i i +
          (ts.map fun t =>
            (occurrenceCount i t : ℚ) * (triangle_area points t / 3)).sum := by
  induction ts with
  | nil => intro m i; simp
  | cons t ts ih =>
    intro m i
    simp only [List.foldl_cons, List.map_cons, List.sum_cons, ih, massStep_diag]
    ring

lemma massStep_offdiag (points : List (ℚ × ℚ)) (m : Nat → Nat → ℚ)
    (t : Nat × Nat × Nat) {i j : Nat} (h : i ≠ j) :
    massStep points m t i j = m i j := by
  have : ∀ r, ¬(i = r ∧ j = r) := by
    intro r hr
    exact h (hr.1.trans hr.2.symm)
  simp [massStep, bumpDiag, this]

lemma massAccum_offdiag (points : List (ℚ × ℚ)) (ts : List (Nat × Nat × Nat)) :
    ∀ (m : Nat → Nat → ℚ) {i j : Nat}, i ≠ j →
      (ts.foldl (massStep points) m) i j = m i j := by
  induction ts with
  | nil => intro m i j _; rfl
  | cons t ts ih =>
    intro m i j h
    rw [List.foldl_cons, ih (massStep points m t) h, massStep_offdiag points m t h]

lemma bumpDiag_sum (m : Nat → Nat → ℚ) (r : Nat) (a : ℚ) {N : Nat} (h : r < N) :
    (∑ i ∈ Finset.range N, bumpDiag m r a i i) =
      (∑ i ∈ Finset.range N, m i i) + a := by
  have hsplit : ∀ i, bumpDiag m r a i i = m i i + if i = r then a else 0 := by
    intro i
    by_cases h' : i = r <;> simp [bumpDiag, h']
  simp only [hsplit]
  rw [Finset.sum_add_distrib]
  have hr : r ∈ Finset.range N := Finset.mem_range.mpr h
  rw [Finset.sum_ite_eq' (Finset.range N) r fun _ => a, if_pos hr]

lemma massStep_sum (points : List (ℚ × ℚ)) (m : Nat → Nat → ℚ)
    (t : Nat × Nat × Nat) {N : Nat} (h1 : t.1 < N) (h2 : t.2.1 < N)
    (h3 : t.2.2 < N) :
    (∑ i ∈ Finset.range N, massStep points m t i i) =
      (∑ i ∈ Finset.range N, m i i) + triangle_area points t := by
  simp only [massStep]
  rw [bumpDiag_sum _ _ _ h3, bumpDiag_sum _ _ _ h2, bumpDiag_sum _ _ _ h1]
  ring

lemma massAccum_sum (points : List (ℚ × ℚ)) {N : Nat}
    (ts : List (Nat × Nat × Nat)) :
    (∀ t ∈ ts, t.1 < N ∧ t.2.1 < N ∧ t.2.2 < N) →
    ∀ m : Nat → Nat → ℚ,
      (∑ i ∈ Finset.range N, (ts.foldl (massStep points) m) i i) =
        (∑ i ∈ Finset.range N, m i i) + (triangle_areas points ts).sum := by
  induction ts with
  | nil => intro _ m; simp [triangle_areas]
  | cons t ts ih =>
    intro hv m
    have ht := hv t (List.mem_cons_self t ts)
    rw [List.foldl_cons,
      ih (fun u hu => hv u (List.mem_cons_of_mem t hu)) (massStep points m t),
      massStep_sum points m t ht.1 ht.2.1 ht.2.2]
    simp only [triangle_areas, List.map_cons, List.sum_cons]
    ring

lemma mass_matrix_dense_getD (points : List (ℚ × ℚ))
    (ts : List (Nat × Nat × Nat)) {i : Nat} (h : i < points.length) :
    (mass_matrix_dense points ts).getD i 0 =
      (ts.foldl (massStep points) fun _ _ => 0) i i := by
  simp [mass_matrix_dense, List.getD_eq_getElem?_getD, List.getElem?_map,
    List.getElem?_range h]

/-- C4: for every non-degenerate triangle (nonzero denominator, i.e.
nonzero signed area), the point returned by the circumcenter computation
is equidistant from the triangle's three vertices (equal squared
Euclidean distances, hence equal Euclidean distances). -/
theorem circumcenter_equidistant (x0 y0 x1 y1 x2 y2 : ℚ)
    (h : voronoiDenominator x0 y0 x1 y1 x2 y2 ≠ 0) :
    sqDist (voronoiVertex x0 y0 x1 y1 x2 y2) (x0, y0) =
        sqDist (voronoiVertex x0 y0 x1 y1 x2 y2) (x1, y1) ∧
      sqDist (voronoiVertex x0 y0 x1 y1 x2 y2) (x0, y0) =
        sqDist (voronoiVertex x0 y0 x1 y1 x2 y2) (x2, y2) := by
  have hd : (2 : ℚ) * ((x1 - x0) * (y2 - y0) - (y1 - y0) * (x2 - x0)) ≠ 0 := h
  constructor <;>
  · simp only [voronoiVertex, sqDist]
    field_simp
    ring

/-- Witness for C4: the right triangle `(0,0), (1,0), (0,1)` has nonzero
denominator and its computed circumcenter `(1/2, 1/2)` is equidistant
from all three vertices. -/
theorem circumcenter_equidistant_witness :
    voronoiDenominator 0 0 1 0 0 1 ≠ 0 ∧
      (sqDist (voronoiVertex 0 0 1 0 0 1) (0, 0) =
          sqDist (voronoiVertex 0 0 1 0 0 1) (1, 0) ∧
        sqDist (voronoiVertex 0 0 1 0 0 1) (0, 0) =
          sqDist (voronoiVertex 0 0 1 0 0 1) (0, 1)) :=
  ⟨by norm_num [voronoiDenominator], circumcenter_equidistant 0 0 1 0 0 1 (by norm_num [voronoiDenominator])⟩

/-- C9: whenever both the multi-threaded (numba) backend and the GPU/jax
backend are requested simultaneously, `SolverOptions.validate` rejects
the configuration with an error before any computation starts. -/
theorem validate_rejects_conflicting_backends (o : SolverOptions)
    (hn : o.screening_use_numba = true) (hj : o.screening_use_jax = true) :
    o.validate = .error .conflictingScreeningBackends := by
  simp [SolverOptions.validate, hn, hj]

/-- Witness for C9: the concrete options with both backends enabled are
rejected. -/
theorem validate_rejects_conflicting_backends_witness :
    (SolverOptions.mk true true).screening_use_numba = true ∧
      (SolverOptions.mk true true).screening_use_jax = true ∧
      (SolverOptions.mk true true).validate =
        .error .conflictingScreeningBackends :=
  ⟨rfl, rfl,
    validate_rejects_conflicting_backends (SolverOptions.mk true true) rfl rfl⟩

/-- C2 counterexample: for the degenerate triangle array `[(0, 1, 0)]`
the undirected edge `(0, 1)` occurs in exactly one triangle, yet
`get_edges` flags it as non-boundary (`false`): `np.unique` counts
canonicalized edge slots, not distinct triangles, and the two slots
`(0, 1)` and `(1, 0)` of the single triangle both canonicalize to
`(0, 1)`, giving multiplicity 2. -/
theorem get_edges_slot_count_deviates :
    (get_edges [(0, 1, 0)]).1 = [(0, 0), (0, 1)] ∧
      (get_edges [(0, 1, 0)]).2 = [true, false] ∧
      [(0, 1, 0)].countP (fun t => decide ((0, 1) ∈ triEdges t)) = 1 := by
  refine ⟨?_, ?_, ?_⟩ <;> decide

/-- C2 (amended): for every triangle array whose triangles each have
three pairwise distinct vertex indices (the data-model invariant; the
restriction is forced by the degenerate-triangle counterexample),
`get_edges` returns exactly the set of undirected edges occurring in
some triangle, each canonicalized (smaller index first) and appearing
exactly once, together with a flag array, aligned with the edge array,
that is true for an edge if and only if that edge occurs in exactly one
triangle; in particular an edge occurring in exactly two triangles is
marked interior. -/
theorem get_edges_spec (elements : List (Nat × Nat × Nat))
    (hd : ∀ t ∈ elements, t.1 ≠ t.2.1 ∧ t.2.1 ≠ t.2.2 ∧ t.2.2 ≠ t.1) :
    (get_edges elements).1.Nodup ∧
      (∀ e, e ∈ (get_edges elements).1 ↔ ∃ t ∈ elements, e ∈ triEdges t) ∧
      (∀ e ∈ (get_edges elements).1, e.1 ≤ e.2) ∧
      (get_edges elements).2.length = (get_edges elements).1.length ∧
      ∀ i, i < (get_edges elements).1.length →
        ((get_edges elements).2.getD i false = true ↔
          elements.countP
            (fun t =>
              decide ((get_edges elements).1.getD i (0, 0) ∈ triEdges t)) = 1) := by
  refine ⟨uniqueEdges_nodup _, ?_, ?_, ?_, ?_⟩
  · intro e
    rw [show (get_edges elements).1 = uniqueEdges (allEdges elements) from rfl,
      mem_uniqueEdges, mem_allEdges]
  · intro e he
    exact allEdges_canonical (mem_uniqueEdges.mp he)
  · simp [get_edges]
  · intro i hi
    rw [get_edges_flag_getD elements hi, ← count_allEdges elements hd]
    simp

/-- Witness for the amended C2 at the unit-square triangulation
`[(0, 1, 2), (0, 2, 3)]`: the edge list is duplicate-free and the flag of
edge 1 (the diagonal `(0, 2)`, shared by both triangles) tracks its
triangle count. -/
theorem get_edges_spec_witness :
    (get_edges [(0, 1, 2), (0, 2, 3)]).1.Nodup ∧
      ((get_edges [(0, 1, 2), (0, 2, 3)]).2.getD 1 false = true ↔
        [(0, 1, 2), (0, 2, 3)].countP
          (fun t =>
            decide
              ((get_edges [(0, 1, 2), (0, 2, 3)]).1.getD 1 (0, 0) ∈ triEdges t)) =
          1) := by
  have h := get_edges_spec [(0, 1, 2), (0, 2, 3)] (by decide)
  exact ⟨h.1, h.2.2.2.2 1 (by decide)⟩

/-- C3 counterexample: on the non-manifold triangle array
`[(0, 1, 2), (0, 1, 3), (0, 1, 4)]`, where the edge `(0, 1)` belongs to
three triangles, `get_edges` returns a result rather than failing: the
source contains no topology check and `np.unique` is total; the
non-manifold edge is simply flagged non-boundary. -/
theorem get_edges_returns_on_nonmanifold :
    (allEdges [(0, 1, 2), (0, 1, 3), (0, 1, 4)]).count (0, 1) = 3 ∧
      get_edges [(0, 1, 2), (0, 1, 3), (0, 1, 4)] =
        ([(0, 1), (0, 2), (0, 3), (0, 4), (1, 2), (1, 3), (1, 4)],
          [false, true, true, true, true, true, true]) := by
  constructor <;> decide

/-- C3 (amended): for every triangle array in which some undirected edge
has occurrence multiplicity at least 2 (including the non-manifold case
of more than two incident triangles), `get_edges` does not fail: it
returns its usual result, with the high-multiplicity edge present in the
edge list and flagged as non-boundary. -/
theorem get_edges_total_nonmanifold (elements : List (Nat × Nat × Nat))
    (e : Nat × Nat) (h : 2 ≤ (allEdges elements).count e) :
    e ∈ (get_edges elements).1 ∧
      ∀ i, i < (get_edges elements).1.length →
        (get_edges elements).1.getD i (0, 0) = e →
        (get_edges elements).2.getD i false = false := by
  have hmem : e ∈ allEdges elements := by
    have hpos : 0 < (allEdges elements).count e := by omega
    exact List.count_pos_iff.mp hpos
  refine ⟨mem_uniqueEdges.mpr hmem, ?_⟩
  intro i hi hEq
  rw [get_edges_flag_getD elements hi, hEq, beq_eq_false_iff_ne]
  omega

/-- Witness for the amended C3 at the concrete non-manifold input:
`(0, 1)` is returned (at position 0) and flagged non-boundary. -/
theorem get_edges_total_nonmanifold_witness :
    (0, 1) ∈ (get_edges [(0, 1, 2), (0, 1, 3), (0, 1, 4)]).1 ∧
      (get_edges [(0, 1, 2), (0, 1, 3), (0, 1, 4)]).2.getD 0 false = false := by
  have h :=
    get_edges_total_nonmanifold [(0, 1, 2), (0, 1, 3), (0, 1, 4)] (0, 1) (by decide)
  exact ⟨h.1, h.2 0 (by decide) (by decide)⟩

/-- C5 counterexample: for the collinear triangle with vertices `(0,0)`,
`(1,0)`, `(2,0)` the circumcenter denominator is zero, yet
`generate_voronoi_vertices` returns a result: the source has no error
check and no raise on the degenerate branch (numpy emits non-finite
values; the exact embedding with total division returns the
zero-division convention value).  This refutes the claim that a
mesh-construction error is raised rather than a result returned. -/
theorem degenerate_triangle_returns_result :
    voronoiDenominator 0 0 1 0 2 0 = 0 ∧
      generate_voronoi_vertices [0, 1, 2] [0, 0, 0] [(0, 1, 2)] = [(0, 0)] := by
  constructor
  · norm_num [voronoiDenominator]
  · norm_num [generate_voronoi_vertices, voronoiVertex, List.getD_cons_zero,
      List.getD_cons_succ]

/-- C5 (amended): for every degenerate (zero-denominator) triangle, the
circumcenter computation raises no error and returns a result anyway;
under the embedding's total-division convention (`x / 0 = 0`, standing
in for numpy's silent non-finite values) the returned point collapses to
vertex 0. -/
theorem degenerate_circumcenter_no_error (x0 y0 x1 y1 x2 y2 : ℚ)
    (h : voronoiDenominator x0 y0 x1 y1 x2 y2 = 0) :
    voronoiVertex x0 y0 x1 y1 x2 y2 = (x0, y0) := by
  have h' : 2 * ((x1 - x0) * (y2 - y0) - (y1 - y0) * (x2 - x0)) = 0 := h
  simp only [voronoiVertex]
  rw [h']
  simp

/-- Witness for the amended C5 at the collinear triangle
`(0,0), (1,0), (2,0)`. -/
theorem degenerate_circumcenter_no_error_witness :
    voronoiDenominator 0 0 1 0 2 0 = 0 ∧ voronoiVertex 0 0 1 0 2 0 = (0, 0) :=
  ⟨by norm_num [voronoiDenominator],
    degenerate_circumcenter_no_error 0 0 1 0 2 0 (by norm_num [voronoiDenominator])⟩

/-- C6 counterexample: the clockwise-oriented (but non-degenerate:
nonzero signed area) triangle `(0, 2, 1)` over the points
`(0,0), (1,0), (0,1)` produces a strictly negative mass-matrix entry for
site 0, refuting the claim that every entry belonging to a site
referenced by at least one non-degenerate triangle is strictly
positive. -/
theorem mass_matrix_entry_negative_for_clockwise_triangle :
    triangle_area [(0, 0), (1, 0), (0, 1)] (0, 2, 1) ≠ 0 ∧
      (mass_matrix_dense [(0, 0), (1, 0), (0, 1)] [(0, 2, 1)]).getD 0 0 < 0 := by
  constructor
  · norm_num [triangle_area, List.getD_cons_zero, List.getD_cons_succ]
  · rw [mass_matrix_dense_getD _ _ (by norm_num)]
    norm_num [List.foldl_cons, List.foldl_nil, massStep, bumpDiag_diag,
      triangle_area, List.getD_cons_zero, List.getD_cons_succ]

/-- C6 (amended): the mass-matrix assembly adds exactly one third of each
triangle's signed area per vertex-slot occurrence, so each diagonal entry
is the sum over triangles of `occurrenceCount * area / 3`; the sum of all
diagonal entries equals the total mesh area (the sum of the signed
triangle areas); and, provided every triangle has nonnegative signed area
(consistent counterclockwise orientation), every entry belonging to a
site referenced by at least one triangle of strictly positive area is
strictly positive.  (The orientation proviso is forced by the
counterexample: for a clockwise triangle the signed area is negative and
the entry is negative.) -/
theorem mass_matrix_one_third_rule (points : List (ℚ × ℚ))
    (ts : List (Nat × Nat × Nat))
    (hv : ∀ t ∈ ts,
      t.1 < points.length ∧ t.2.1 < points.length ∧ t.2.2 < points.length) :
    (∀ i, i < points.length →
        (mass_matrix_dense points ts).getD i 0 =
          (ts.map fun t =>
            (occurrenceCount i t : ℚ) * (triangle_area points t / 3)).sum) ∧
      ((∑ i ∈ Finset.range points.length, (mass_matrix_dense points ts).getD i 0) =
        (triangle_areas points ts).sum) ∧
      (∀ i, i < points.length → (∀ t ∈ ts, 0 ≤ triangle_area points t) →
        (∃ t ∈ ts, (i = t.1 ∨ i = t.2.1 ∨ i = t.2.2) ∧
          0 < triangle_area points t) →
        0 < (mass_matrix_dense points ts).getD i 0) := by
  have hdiag : ∀ i, i < points.length →
      (mass_matrix_dense points ts).getD i 0 =
        (ts.map fun t =>
          (occurrenceCount i t : ℚ) * (triangle_area points t / 3)).sum := by
    intro i hi
    rw [mass_matrix_dense_getD points ts hi, massAccum_diag]
    simp
  refine ⟨hdiag, ?_, ?_⟩
  · rw [Finset.sum_congr rfl fun i hi =>
      mass_matrix_dense_getD points ts (Finset.mem_range.mp hi)]
    rw [massAccum_sum points ts hv fun _ _ => 0]
    simp
  · intro i hi hnonneg ht
    obtain ⟨t0, ht0, hslot, hpos⟩ := ht
    rw [hdiag i hi]
    have hx : (occurrenceCount i t0 : ℚ) * (triangle_area points t0 / 3) ∈
        ts.map fun t =>
          (occurrenceCount i t : ℚ) * (triangle_area points t / 3) :=
      List.mem_map_of_mem _ ht0
    have hone : 1 ≤ occurrenceCount i t0 := by
      rcases hslot with h | h | h <;> simp [occurrenceCount, h] <;> split_ifs <;> omega
    have hxpos : 0 < (occurrenceCount i t0 : ℚ) * (triangle_area points t0 / 3) := by
      have : (0 : ℚ) < (occurrenceCount i t0 : ℚ) := by
        exact_mod_cast Nat.lt_of_lt_of_le Nat.zero_lt_one hone
      positivity
    have hall : ∀ x ∈ ts.map fun t =>
        (occurrenceCount i t : ℚ) * (triangle_area points t / 3), 0 ≤ x := by
      intro x hxmem
      obtain ⟨t, htmem, rfl⟩ := List.mem_map.mp hxmem
      have := hnonneg t htmem
      positivity
    exact lt_of_lt_of_le hxpos (List.single_le_sum hall _ hx)

/-- Witness for the amended C6 at the counterclockwise unit right
triangle: site 0 gets entry `1/6 > 0`. -/
theorem mass_matrix_one_third_rule_witness :
    0 < (mass_matrix_dense [(0, 0), (1, 0), (0, 1)] [(0, 1, 2)]).getD 0 0 := by
  have h := mass_matrix_one_third_rule [(0, 0), (1, 0), (0, 1)] [(0, 1, 2)]
    (by intro t ht; simp only [List.mem_singleton] at ht; subst ht; norm_num)
  refine h.2.2 0 (by norm_num) ?_ ?_
  · intro t ht
    simp only [List.mem_singleton] at ht
    subst ht
    norm_num [triangle_area, List.getD_cons_zero, List.getD_cons_succ]
  · exact ⟨(0, 1, 2), by simp, Or.inl rfl,
      by norm_num [triangle_area, List.getD_cons_zero, List.getD_cons_succ]⟩

/-- C10: `mass_matrix` with `sparse=True` returns a matrix whose diagonal
agrees entry for entry with the vector returned by `sparse=False` on the
same inputs, and whose off-diagonal entries are all zero. -/
theorem mass_matrix_sparse_dense_agree (points : List (ℚ × ℚ))
    (ts : List (Nat × Nat × Nat)) :
    (∀ i, i < points.length →
        (mass_matrix_dense points ts).getD i 0 = mass_matrix_sparse points ts i i) ∧
      ∀ i j, i ≠ j → mass_matrix_sparse points ts i j = 0 := by
  constructor
  · intro i hi
    rw [mass_matrix_dense_getD points ts hi]
    rfl
  · intro i j h
    exact massAccum_offdiag points ts _ h

/-- Witness for C10 at the unit right triangle mesh: the dense vector and
the sparse diagonal agree at site 1, and the off-diagonal `(0, 1)` entry
is zero. -/
theorem mass_matrix_sparse_dense_agree_witness :
    (mass_matrix_dense [(0, 0), (1, 0), (0, 1)] [(0, 1, 2)]).getD 1 0 =
        mass_matrix_sparse [(0, 0), (1, 0), (0, 1)] [(0, 1, 2)] 1 1 ∧
      mass_matrix_sparse [(0, 0), (1, 0), (0, 1)] [(0, 1, 2)] 0 1 = 0 :=
  ⟨(mass_matrix_sparse_dense_agree _ _).1 1 (by norm_num),
    (mass_matrix_sparse_dense_agree _ _).2 0 1 (by norm_num)⟩

lemma foldl_add_range (f : Nat → ℝ) (n : Nat) :
    ∀ init : ℝ, (List.range n).foldl (fun acc j => acc + f j) init =
      init + ∑ j ∈ Finset.range n, f j := by
  induction n with
  | zero => intro init; simp
  | succ n ih =>
    intro init
    rw [List.range_succ, List.foldl_append, List.foldl_cons, List.foldl_nil, ih,
      Finset.sum_range_succ]
    ring

/-- C8: for every complex field `psi` at sites, gradient operator and edge
array, the supercurrent returned on edge `e` (with first endpoint
`a = edges[e][0]`) equals the imaginary part of `conj(psi[a])` multiplied
by the `e`-th entry of the gradient operator applied to `psi`; the
evaluation is a pure function of its read-only inputs. -/
theorem get_supercurrent_spec (psi : List (ℚ × ℚ))
    (gradient : List (List (ℚ × ℚ))) (edges : List (Nat × Nat)) :
    (get_supercurrent psi gradient edges).length = edges.length ∧
      ∀ e, e < edges.length →
        (get_supercurrent psi gradient edges).getD e 0 =
          (cMul (cConj (psi.getD (edges.getD e (0, 0)).1 (0, 0)))
            (∑ s ∈ Finset.range psi.length,
              cMul ((gradient.getD e []).getD s (0, 0)) (psi.getD s (0, 0)))).2 := by
  constructor
  · simp [get_supercurrent]
  · intro e he
    simp [get_supercurrent, matVec, List.getD_eq_getElem?_getD, List.getElem?_map,
      List.getElem?_range he]

/-- Witness for C8: a two-site mesh with a single edge and the difference
operator as gradient; the supercurrent evaluates to `1`. -/
theorem get_supercurrent_spec_witness :
    (get_supercurrent [(1, 0), (0, 1)] [[(-1, 0), (1, 0)]] [(0, 1)]).getD 0 0 =
      1 := by
  have h :=
    (get_supercurrent_spec [(1, 0), (0, 1)] [[(-1, 0), (1, 0)]] [(0, 1)]).2 0
      (by norm_num)
  rw [h]
  norm_num [Finset.sum_range_succ, cMul, cConj, List.getD_cons_zero,
    List.getD_cons_succ, Prod.mk_add_mk]

/-- C1: for every current density, site areas, site positions and edge
centers (sites and current array of equal length, every edge center
distinct from every site position), the screening kernel output at edge
`i` has components equal to the sum over all sites `j` of
`J_site[j][k] * site_area[j]` divided by the Euclidean distance between
`edge_center[i]` and `site_pos[j]`. -/
theorem get_A_induced_spec (J_site : List (ℝ × ℝ)) (site_areas : List ℝ)
    (sites : List (ℝ × ℝ)) (edge_centers : List (ℝ × ℝ))
    (_hlen : sites.length = J_site.length)
    (_hdist : ∀ c ∈ edge_centers, ∀ s ∈ sites, c ≠ s) :
    (get_A_induced J_site site_areas sites edge_centers).length =
        edge_centers.length ∧
      ∀ i, i < edge_centers.length →
        (get_A_induced J_site site_areas sites edge_centers).getD i (0, 0) =
          (∑ j ∈ Finset.range J_site.length,
            (J_site.getD j (0, 0)).1 * site_areas.getD j 0 /
              euclideanDist (edge_centers.getD i (0, 0)) (sites.getD j (0, 0)),
          ∑ j ∈ Finset.range J_site.length,
            (J_site.getD j (0, 0)).2 * site_areas.getD j 0 /
              euclideanDist (edge_centers.getD i (0, 0)) (sites.getD j (0, 0))) := by
  constructor
  · simp [get_A_induced]
  · intro i hi
    simp only [get_A_induced, List.getD_eq_getElem?_getD, List.getElem?_map,
      List.getElem?_eq_getElem hi, Option.map_some', Option.getD_some,
      foldl_add_range, zero_add]

/-- Witness for C1: one site at the origin carrying current `(2, 3)` with
unit area, one edge center at `(1, 0)` (distance 1): the induced
potential is `(2, 3)`. -/
theorem get_A_induced_spec_witness :
    (((1 : Real), (0 : Real)) ≠ ((0 : Real), (0 : Real))) ∧
      (get_A_induced [(2, 3)] [1] [(0, 0)] [(1, 0)]).getD 0 (0, 0) = (2, 3) := by
  have hdist : ∀ c ∈ [((1 : Real), (0 : Real))],
      ∀ s ∈ [((0 : Real), (0 : Real))], c ≠ s := by
    intro c hc s hs
    simp only [List.mem_singleton] at hc hs
    subst hc
    subst hs
    simp only [ne_eq, Prod.mk.injEq, not_and]
    intro hcontra
    norm_num at hcontra
  refine ⟨hdist _ (List.mem_singleton_self _) _ (List.mem_singleton_self _), ?_⟩
  have h :=
    (get_A_induced_spec [(2, 3)] [1] [(0, 0)] [(1, 0)] rfl hdist).2 0 (by norm_num)
  rw [h]
  norm_num [Finset.sum_range_one, euclideanDist, List.getD_cons_zero,
    Real.sqrt_one]


/-- C7: in `compute_surrounding_area`, every boundary site's cell is
closed by appending the site's own position and the midpoints of its
incident boundary edges to the circumcenter set and taking the
convex-hull area, with the (site + midpoints) polygon area subtracted
exactly when the closed point set is flagged non-convex; non-convexity is
flagged exactly when the hull has fewer vertices than the input point set
(equal counts means convex); and every all-collinear point set yields
area 0 with no error. -/
theorem compute_surrounding_area_spec (x y x_dual y_dual : List ℚ)
    (boundary : List Nat) (edges : List (Nat × Nat)) (bei : List Nat)
    (polygons : List (List Nat)) :
    (∀ i, i < polygons.length → boundary.contains i = true →
      (compute_surrounding_area x y x_dual y_dual boundary edges bei
          polygons).getD i 0 =
        (get_convex_polygon_area
            (((polygons.getD i []).map fun t => x_dual.getD t 0) ++
              siteMidpointPolygonX x (bei.map fun k => edges.getD k (0, 0)) i)
            (((polygons.getD i []).map fun t => y_dual.getD t 0) ++
              siteMidpointPolygonY y (bei.map fun k => edges.getD k (0, 0)) i)).1 -
          (if (get_convex_polygon_area
              (((polygons.getD i []).map fun t => x_dual.getD t 0) ++
                siteMidpointPolygonX x (bei.map fun k => edges.getD k (0, 0)) i)
              (((polygons.getD i []).map fun t => y_dual.getD t 0) ++
                siteMidpointPolygonY y
                  (bei.map fun k => edges.getD k (0, 0)) i)).2 = true then 0
           else
            (get_convex_polygon_area
              (siteMidpointPolygonX x (bei.map fun k => edges.getD k (0, 0)) i)
              (siteMidpointPolygonY y
                (bei.map fun k => edges.getD k (0, 0)) i)).1)) ∧
      (∀ u v : List ℚ, allCollinear (u.zip v) = false →
        ((get_convex_polygon_area u v).2 = true ↔
          (hullVertices (u.zip v)).length = (u.zip v).length)) ∧
      (∀ u v : List ℚ, allCollinear (u.zip v) = true →
        get_convex_polygon_area u v = (0, true)) := by
  refine ⟨?_, ?_, ?_⟩
  · intro i hi hb
    simp only [compute_surrounding_area, List.getD_eq_getElem?_getD,
      List.getElem?_map, List.getElem?_range hi, Option.map_some',
      Option.getD_some, hb, if_true]
    split
    · simp_all
    · simp_all
  · intro u v h
    simp [get_convex_polygon_area, h]
  · intro u v h
    simp [get_convex_polygon_area, h]

/-- Witness for C7: a single boundary site at the origin with one
circumcenter and one incident boundary edge (closed cell a triangle,
convex, no correction), plus the collinear branch of
`get_convex_polygon_area` on three collinear points. -/
theorem compute_surrounding_area_spec_witness :
    ((compute_surrounding_area [0, 1] [0, 0] [1/2] [1/2] [0] [(0, 1)] [0]
        [[0]]).getD 0 0 =
      (get_convex_polygon_area
          ((([[0]].getD 0 []).map fun t => [(1 : ℚ)/2].getD t 0) ++
            siteMidpointPolygonX [0, 1]
              ([0].map fun k => [((0 : Nat), (1 : Nat))].getD k (0, 0)) 0)
          ((([[0]].getD 0 []).map fun t => [(1 : ℚ)/2].getD t 0) ++
            siteMidpointPolygonY [0, 0]
              ([0].map fun k => [((0 : Nat), (1 : Nat))].getD k (0, 0)) 0)).1 -
        (if (get_convex_polygon_area
            ((([[0]].getD 0 []).map fun t => [(1 : ℚ)/2].getD t 0) ++
              siteMidpointPolygonX [0, 1]
                ([0].map fun k => [((0 : Nat), (1 : Nat))].getD k (0, 0)) 0)
            ((([[0]].getD 0 []).map fun t => [(1 : ℚ)/2].getD t 0) ++
              siteMidpointPolygonY [0, 0]
                ([0].map fun k =>
                  [((0 : Nat), (1 : Nat))].getD k (0, 0)) 0)).2 = true then 0
         else
          (get_convex_polygon_area
            (siteMidpointPolygonX [0, 1]
              ([0].map fun k => [((0 : Nat), (1 : Nat))].getD k (0, 0)) 0)
            (siteMidpointPolygonY [0, 0]
              ([0].map fun k =>
                [((0 : Nat), (1 : Nat))].getD k (0, 0)) 0)).1)) ∧
      get_convex_polygon_area [0, 1, 2] [0, 0, 0] = (0, true) := by
  constructor
  · exact (compute_surrounding_area_spec [0, 1] [0, 0] [1/2] [1/2] [0] [(0, 1)]
      [0] [[0]]).1 0 (by norm_num) (by decide)
  · refine (compute_surrounding_area_spec [] [] [] [] [] [] [] []).2.2
      [0, 1, 2] [0, 0, 0] ?_
    norm_num [allCollinear, cross2, List.zip_cons_cons, List.zip_nil_right]

end TDGL
